import Mathlib

/-!
# Verification of the python-fastapi generator (`src/generators/python-fastapi.ts`)

Shallow embedding of the schema-resolution, type-mapping, naming, grouping and
emission logic of the generator, together with theorems settling the frozen
claims about it.

Modelling conventions:
* TypeScript `undefined` fields are modelled with `Option`; the JavaScript
  truthiness test `if (x)` on an optional string is `strTruthy` (both
  `undefined` and `""` are falsy, while any object — including `[]` and `{}` —
  is truthy, so optional arrays/objects are tested with `Option.isSome`).
* JavaScript objects used as string-keyed records are modelled as association
  lists in insertion order; property assignment `o[k] = v` is `objUpsert`
  (replace in place, keeping the original position, or append), and the spread
  merge `{...a, ...b}` is `objMerge`.
* `Array.from(new Set(l))` is `dedupFirst` (first-occurrence order).
-/

/-- JavaScript truthiness of an optional string: `undefined` and `""` are falsy. -/
def strTruthy : Option String → Bool
  | none => false
  | some s => s ≠ ""

/-- JS `String.split` with a one-character separator, at the character level
(the result is never empty; `''.split('/')` is `['']`). -/
def splitOnChar (sep : Char) : List Char → List (List Char)
  | [] => [[]]
  | c :: rest =>
    match splitOnChar sep rest with
    | [] => [[]]
    | g :: gs => if c = sep then [] :: g :: gs else (c :: g) :: gs

/-- `arr[arr.length - 1]` of `s.split('/')`. -/
def lastSegment (s : String) : String :=
  ⟨(splitOnChar '/' s.data).getLastD []⟩

/-- JS `String.toLowerCase` (character-wise). -/
def strToLower (s : String) : String :=
  ⟨s.data.map Char.toLower⟩

/-- `Array.from(new Set(l))`: deduplicate keeping the first occurrence of each element. -/
def dedupFirst (l : List String) : List String :=
  l.foldl (fun acc x => if x ∈ acc then acc else acc ++ [x]) []

/-- Lookup in a JS-object-as-association-list (first binding wins; keys are unique in
objects produced by JS, so first = only). -/
def alookup {α : Type} (k : String) : List (String × α) → Option α
  | [] => none
  | (k', v) :: rest => if k' = k then some v else alookup k rest

/-- JS property assignment `o[k] = v`: replace the value in place if the key exists
(keeping its position), otherwise append the new binding. -/
def objUpsert {α : Type} (l : List (String × α)) (k : String) (v : α) : List (String × α) :=
  match l with
  | [] => [(k, v)]
  | (k', v') :: rest => if k' = k then (k', v) :: rest else (k', v') :: objUpsert rest k v

/-- JS object spread `{...a, ...b}`: superimpose `b` onto `a`, later keys winning. -/
def objMerge {α : Type} (a b : List (String × α)) : List (String × α) :=
  b.foldl (fun acc kv => objUpsert acc kv.1 kv.2) a

/-- One pass of substring replacement (JS `String.replace` with a global literal
pattern: scan left to right, non-overlapping, never rescanning a replacement).
The fuel is structural bookkeeping only: each step consumes at least one
character, so `fuel = l.length` (as used by `replaceSub`) always suffices. -/
def replaceSubAux (pat rep : List Char) : Nat → List Char → List Char
  | 0, l => l
  | fuel + 1, l =>
    match l with
    | [] => []
    | c :: rest =>
      if pat ≠ [] ∧ pat.isPrefixOf (c :: rest) then
        rep ++ replaceSubAux pat rep fuel ((c :: rest).drop pat.length)
      else
        c :: replaceSubAux pat rep fuel rest

/-- Substring replacement over a whole character list. -/
def replaceSub (pat rep l : List Char) : List Char :=
  replaceSubAux pat rep l.length l

/-- `decodeHtmlEntities`: `.replace(/&quot;/g, '"').replace(/&amp;/g, '&')`. -/
def decodeHtmlEntities (s : String) : String :=
  ⟨replaceSub "&amp;".data "&".data (replaceSub "&quot;".data "\"".data s.data)⟩

/-- `PYTHON_RESERVED_WORDS`, in the order of the source. -/
def PYTHON_RESERVED_WORDS : List String :=
  ["and", "as", "assert", "break", "class", "continue", "def", "del", "elif",
   "else", "except", "False", "finally", "for", "from", "global", "if", "import",
   "in", "is", "lambda", "None", "nonlocal", "not", "or", "pass", "raise",
   "return", "True", "try", "while", "with", "yield"]

/-- Membership in the JS regex character class `\w` = `[A-Za-z0-9_]`. -/
def isWordChar (c : Char) : Bool :=
  c.isAlphanum || c = '_'

/-- `name.replace(/[^\w]/g, '_')`. -/
def sanitizeBase (s : String) : String :=
  ⟨s.data.map (fun c => if isWordChar c then c else '_')⟩

/-- The JS test `/^\d/.test(s)`. -/
def startsWithDigit (s : String) : Bool :=
  match s.data with
  | [] => false
  | c :: _ => c.isDigit

/-- `sanitizeName`: make a string a legal Python identifier, avoiding reserved words
and a leading digit. -/
def sanitizeName (s : String) : String :=
  let safe := sanitizeBase s
  let safe := if safe ∈ PYTHON_RESERVED_WORDS then safe ++ "_" else safe
  if startsWithDigit safe then "_" ++ safe else safe

/-- `getEnumName`: enum class name for a property with an inline enum. -/
def getEnumName (schemaName propName : String) : String :=
  sanitizeName (schemaName ++ "_" ++ propName ++ "_Enum")

/-- The `(type, format, items, $ref)` view of an `items` node, which is all
`getPythonType` reads from it. -/
inductive ItemsNode where
  | mk (type format : Option String) (items : Option ItemsNode) (ref : Option String)

/-- The non-reference dispatch of `getPythonType` on `(type, format)`, with the
`array` branch's recursive child type passed in as `childTy` (`none` when the
`items` field is absent). -/
def typeDispatch (t f : Option String) (childTy : Option String) : String :=
  if !strTruthy t then "Any"
  else match t.getD "" with
  | "integer" => "int"
  | "number" => "float"
  | "boolean" => "bool"
  | "string" =>
    match f with
    | some "date" => "datetime.date"
    | some "date-time" => "datetime.datetime"
    | some "uuid" => "uuid.UUID"
    | some "email" => "EmailStr"
    | some "uri" => "AnyUrl"
    | some "url" => "AnyUrl"
    | some "byte" => "bytes"
    | some "binary" => "bytes"
    | some "password" => "SecretStr"
    | _ => "str"
  | "array" =>
    match childTy with
    | some cy => "List[" ++ cy ++ "]"
    | none => "List[Any]"
  | "object" => "Dict[str, Any]"
  | _ => "Any"

/-- `getPythonType` applied to the four fields packed in an `ItemsNode`
(structural recursion carrier: the source recurses with
`getPythonType(items.type, items.format, items.items, items.$ref)`; the child
type is precomputed before the dispatch, which changes nothing observably since
the mapper is pure). -/
def getPythonTypeOf : ItemsNode → String
  | .mk t f it ref =>
    if strTruthy ref then sanitizeName (lastSegment (ref.getD ""))
    else typeDispatch t f
      (match it with
       | some child => some (getPythonTypeOf child)
       | none => none)

/-- `getPythonType`: deduce the Python type token from `(type, format, items, $ref)`. -/
def getPythonType (t f : Option String) (it : Option ItemsNode) (ref : Option String) : String :=
  getPythonTypeOf (ItemsNode.mk t f it ref)

example : getPythonType (some "array") none
    (some (ItemsNode.mk (some "string") (some "uuid") none none)) none
    = "List[uuid.UUID]" := by rfl

example : sanitizeName "2two-words" = "_2two_words" := by rfl
example : sanitizeName "class" = "class_" := by rfl
example : decodeHtmlEntities "a&amp;quot;b&quot;" = "a&quot;b\"" := by rfl

/-- A JSON scalar, as found in `default` / `example` / `enum` fields
(`typeof` dispatch in the source only distinguishes booleans and strings). -/
inductive JsonVal where
  | bool (b : Bool)
  | str (s : String)
  | num (n : Int)
  | null
deriving DecidableEq

/-- A raw (or resolved) schema tree node, carrying exactly the fields the
generator reads. `items` is the `(type, format, items, $ref)` projection
consumed by `getPythonType`; `xOneOfUnion` is the union marker field that
`mergeComplexSchema` writes. Absent fields are `none`. -/
inductive SchemaNode where
  | mk (type format ref : Option String)
       (properties : Option (List (String × SchemaNode)))
       (required : Option (List String))
       (allOf oneOf : Option (List SchemaNode))
       (items : Option ItemsNode)
       (enumVals : Option (List JsonVal))
       (default exampleVal : Option JsonVal)
       (pattern description : Option String)
       (xOneOfUnion : Option (List String))

namespace SchemaNode

def type : SchemaNode → Option String
  | .mk t _ _ _ _ _ _ _ _ _ _ _ _ _ => t

def format : SchemaNode → Option String
  | .mk _ f _ _ _ _ _ _ _ _ _ _ _ _ => f

def ref : SchemaNode → Option String
  | .mk _ _ r _ _ _ _ _ _ _ _ _ _ _ => r

def properties : SchemaNode → Option (List (String × SchemaNode))
  | .mk _ _ _ ps _ _ _ _ _ _ _ _ _ _ => ps

def required : SchemaNode → Option (List String)
  | .mk _ _ _ _ rq _ _ _ _ _ _ _ _ _ => rq

def allOf : SchemaNode → Option (List SchemaNode)
  | .mk _ _ _ _ _ ao _ _ _ _ _ _ _ _ => ao

def oneOf : SchemaNode → Option (List SchemaNode)
  | .mk _ _ _ _ _ _ oo _ _ _ _ _ _ _ => oo

def items : SchemaNode → Option ItemsNode
  | .mk _ _ _ _ _ _ _ it _ _ _ _ _ _ => it

def enumVals : SchemaNode → Option (List JsonVal)
  | .mk _ _ _ _ _ _ _ _ ev _ _ _ _ _ => ev

def default : SchemaNode → Option JsonVal
  | .mk _ _ _ _ _ _ _ _ _ df _ _ _ _ => df

def exampleVal : SchemaNode → Option JsonVal
  | .mk _ _ _ _ _ _ _ _ _ _ ex _ _ _ => ex

def pattern : SchemaNode → Option String
  | .mk _ _ _ _ _ _ _ _ _ _ _ pt _ _ => pt

def description : SchemaNode → Option String
  | .mk _ _ _ _ _ _ _ _ _ _ _ _ ds _ => ds

def xOneOfUnion : SchemaNode → Option (List String)
  | .mk _ _ _ _ _ _ _ _ _ _ _ _ _ xu => xu

/-- A node with every field absent. -/
def empty : SchemaNode :=
  .mk none none none none none none none none none none none none none none

end SchemaNode

/-- `resolveRef`: look up `#/components/schemas/Name` in the components map
(`components[name]`; an unknown name yields `none`, where the source yields
`undefined` and subsequently crashes). -/
def resolveRef (ref : String) (components : List (String × SchemaNode)) : Option SchemaNode :=
  alookup (lastSegment ref) components

/-- `mergeInto(base, extra)`: superimpose `extra.properties` onto `base.properties`
and union `extra.required` into `base.required`. In the source `base` is always
the `allOf` accumulator, whose `properties` and `required` are always present;
for an absent field the empty object/array default is used. -/
def mergeInto (base extra : SchemaNode) : SchemaNode :=
  match base with
  | .mk t f r ps rq ao oo it ev df ex pt ds xu =>
    let ps' := match extra.properties with
      | some eps => some (objMerge (ps.getD []) eps)
      | none => ps
    let rq' := match extra.required with
      | some ers => some (dedupFirst (rq.getD [] ++ ers))
      | none => rq
    .mk t f r ps' rq' ao oo it ev df ex pt ds xu

/-- The fresh `allOf` accumulator `{ type: 'object', properties: {}, required: [] }`. -/
def emptyObjNode : SchemaNode :=
  .mk (some "object") none none (some []) (some []) none none none none none none none none none

/-- The `oneOf` union marker `{ xOneOfUnion: oneOf.map(sub => sub.$ref ? sanitize(last) : 'Any') }`. -/
def unionMarker (subs : List SchemaNode) : SchemaNode :=
  .mk none none none none none none none none none none none none none
    (some (subs.map fun sub =>
      if strTruthy sub.ref then sanitizeName (lastSegment (sub.ref.getD "")) else "Any"))

/-- The node an `allOf` member is recursively merged from: its `$ref` target when the
`$ref` is (truthy and) declared, otherwise the member itself; `none` models the crash
on an unresolvable reference. -/
def effNode (components : List (String × SchemaNode)) (sub : SchemaNode) : Option SchemaNode :=
  if strTruthy sub.ref then resolveRef (sub.ref.getD "") components else some sub

/-- `mergeComplexSchema`: flatten `allOf` into the object accumulator, turn `oneOf`
into a union marker, and pass every other node through unchanged. The source
recurses without a bound (a reference cycle diverges); the embedding spends one
unit of fuel per recursion level and returns `none` for divergence or for the
crash on an unresolvable `$ref`. -/
def mergeComplexSchema : Nat → SchemaNode → List (String × SchemaNode) → Option SchemaNode
  | 0, _, _ => none
  | fuel + 1, schema, components =>
    match schema.allOf with
    | some subs =>
      subs.foldl
        (fun acc sub =>
          match acc with
          | none => none
          | some merged =>
            match effNode components sub with
            | none => none
            | some eff =>
              match mergeComplexSchema fuel eff components with
              | none => none
              | some resolved => some (mergeInto merged resolved))
        (some emptyObjNode)
    | none =>
      match schema.oneOf with
      | some subs => some (unionMarker subs)
      | none => some schema

/-- Normalization of the `default` literal (`typeof` dispatch): a boolean becomes
the Python literal `True`/`False`, a string is wrapped in double quotes, anything
else is left as-is. -/
def normalizeDefault : Option JsonVal → Option JsonVal
  | some (.bool b) => some (.str (if b then "True" else "False"))
  | some (.str s) => some (.str ("\"" ++ s ++ "\""))
  | v => v

/-- Normalization of the `example` literal: only a string is wrapped in double
quotes; every other value (booleans included) is left as-is. -/
def normalizeExample : Option JsonVal → Option JsonVal
  | some (.str s) => some (.str ("\"" ++ s ++ "\""))
  | v => v

/-- One entry of `processedProperties`. -/
structure ProcessedProp where
  originalName : String
  name : String
  type : String
  default : Option JsonVal
  exampleVal : Option JsonVal
  regex : Option String
  description : String
  enumVals : Option (List JsonVal)
deriving DecidableEq

/-- Build one `processedProperties` entry from a `(propName, propSchema)` pair. -/
def processProp (propName : String) (ps : SchemaNode) : ProcessedProp :=
  { originalName := propName
    name := sanitizeName propName
    type := getPythonType ps.type ps.format ps.items ps.ref
    default := normalizeDefault ps.default
    exampleVal := normalizeExample ps.exampleVal
    regex := match ps.pattern with
      | some p => if p ≠ "" then some ("r\"" ++ decodeHtmlEntities p ++ "\"") else none
      | none => none
    description := ps.description.getD ""
    enumVals := ps.enumVals }

/-- The `processedProperties` record: inserted in declaration order, keyed by the
sanitized property name (`processedProperties[sanitizedName] = {...}`). -/
def buildProcessedProperties (props : List (String × SchemaNode)) : List (String × ProcessedProp) :=
  props.foldl (fun acc pp => objUpsert acc (sanitizeName pp.1) (processProp pp.1 pp.2)) []

/-- `processEnums`: for each property with an `enum` list, record a created enum and
rewrite the property's type in place to the enum name. Returns the rewritten
property record and the created enums, in iteration order. -/
def processEnums (schemaName : String) (props : List (String × ProcessedProp)) :
    List (String × ProcessedProp) × List (String × List JsonVal) :=
  props.foldl
    (fun acc pp =>
      match pp.2.enumVals with
      | some vs =>
        let enumName := getEnumName schemaName pp.1
        (acc.1 ++ [(pp.1, { pp.2 with type := enumName })], acc.2 ++ [(enumName, vs)])
      | none => (acc.1 ++ [pp], acc.2))
    ([], [])

/-- Whether `pat` occurs as a contiguous run of `l`. -/
def listHasInfix (pat : List Char) : List Char → Bool
  | [] => pat.isEmpty
  | c :: rest => pat.isPrefixOf (c :: rest) || listHasInfix pat rest

/-- Whether `pat` occurs as a substring of `s` (JS `String.includes`). -/
def strIncludes (s pat : String) : Bool :=
  listHasInfix pat.data s.data

/-- The import lines one property type contributes, in the check order of the source. -/
def importsForType (ty : String) : List String :=
  (if strIncludes ty "List[" then ["from typing import List"] else []) ++
  (if strIncludes ty "Dict[" then ["from typing import Dict, Any"] else []) ++
  (if strIncludes ty "AnyUrl" then ["from pydantic import AnyUrl"] else []) ++
  (if strIncludes ty "EmailStr" then ["from pydantic import EmailStr"] else []) ++
  (if strIncludes ty "SecretStr" then ["from pydantic import SecretStr"] else []) ++
  (if strIncludes ty "datetime.date" || strIncludes ty "datetime.datetime"
    then ["import datetime"] else []) ++
  (if strIncludes ty "uuid.UUID" then ["import uuid"] else [])

/-- `gatherImportsForProps`: scan every property type, collecting import lines into
an insertion-ordered set. -/
def gatherImportsForProps (props : List (String × ProcessedProp)) : List String :=
  dedupFirst (props.flatMap fun pp => importsForType pp.2.type)

/-- An operation node under a path: either an object (with an optional `tags`
array) or a non-object value, which the grouping loop skips. -/
inductive Operation where
  | obj (tags : Option (List String))
  | nonObj
deriving DecidableEq

/-- The grouping key of an operation's tags field:
`const tags = operation.tags || ['api']; const tag = tags[0];`.
An absent (falsy) `tags` defaults to `['api']`; a present-but-empty array is
truthy, so `tags[0]` is `undefined` and the object key used is the string
`"undefined"`. -/
def opTagFromTags : Option (List String) → String
  | none => "api"
  | some [] => "undefined"
  | some (t :: _) => t

/-- A grouped member `{ path, method, operation }`. -/
abbrev GroupMember := String × String × Operation

/-- `if (!pathsByTag[tag]) pathsByTag[tag] = []; pathsByTag[tag].push(m)`:
append to the tag's list, creating the key at the end on first use. -/
def tagInsert (acc : List (String × List GroupMember)) (tag : String) (m : GroupMember) :
    List (String × List GroupMember) :=
  match acc with
  | [] => [(tag, [m])]
  | (t, ms) :: rest =>
    if t = tag then (t, ms ++ [m]) :: rest else (t, ms) :: tagInsert rest tag m

/-- The `pathsByTag` grouping loop: iterate paths, then methods within a path,
skip non-object operation nodes, and append each remaining operation to the
group of its first tag. -/
def groupPathsByTag (paths : List (String × List (String × Operation))) :
    List (String × List GroupMember) :=
  paths.foldl
    (fun acc pe =>
      pe.2.foldl
        (fun acc2 me =>
          match me.2 with
          | .nonObj => acc2
          | .obj tags => tagInsert acc2 (opTagFromTags tags) (pe.1, me.1, .obj tags))
        acc)
    []

example :
    groupPathsByTag [("/pets", [("get", .obj (some ["pets"])), ("post", .obj (some ["pets"]))]),
                     ("/users", [("get", .obj (some ["users"])), ("x-note", .nonObj)])] =
    [("pets", [("/pets", "get", .obj (some ["pets"])), ("/pets", "post", .obj (some ["pets"]))]),
     ("users", [("/users", "get", .obj (some ["users"]))])] := by rfl

/-- The observable state of one generation run: files written so far (path,
content, in write order) and diagnostics emitted so far (level, message). -/
structure GenState where
  files : List (String × String)
  logs : List (String × String)

/-- The rendering context of the `model_class` template: `{name, schema,
importsList, createdEnums}`, where `schema` carries `processedProperties`
(`none` in the empty-model branch, which never attaches them). -/
structure ModelClassCtx where
  name : String
  schema : SchemaNode
  processed : Option (List (String × ProcessedProp))
  importsList : List String
  createdEnums : List (String × List JsonVal)

/-- The rendering context of the `one_of_union` template. -/
structure UnionCtx where
  name : String
  unionTypes : List String

/-- The rendering context of the `api_routes` template. -/
structure RoutesCtx where
  tag : String
  operations : List GroupMember

/-- The loaded template set: each template is either absent (silent skip) or a
render function which may fail. Rendering plus the subsequent synchronous write
are modelled as one fallible step per artifact (`Except.error` = the raised
render/write error). -/
structure Templates where
  main : Option (Except String String)
  requirements : Option (Except String String)
  readme : Option (Except String String)
  model_class : Option (ModelClassCtx → Except String String)
  one_of_union : Option (UnionCtx → Except String String)
  api_routes : Option (RoutesCtx → Except String String)

/-- The parsed API description, reduced to what `generate` reads:
`(api.components && api.components.schemas) || {}` and `api.paths`. -/
structure ApiSpec where
  schemas : List (String × SchemaNode)
  paths : Option (List (String × List (String × Operation)))

/-- Append one diagnostic line. -/
def logAt (st : GenState) (level msg : String) : GenState :=
  { st with logs := st.logs ++ [(level, msg)] }

/-- Attempt one artifact: on a successful render, write the file; on a raised
error, emit the error-level diagnostic of the enclosing `catch` block and
propagate the error. -/
def tryArtifact (st : GenState) (path : String) (r : Except String String)
    (errMsg : String → String) : GenState × Option String :=
  match r with
  | .ok content => ({ st with files := st.files ++ [(path, content)] }, none)
  | .error e => (logAt st "ERROR" (errMsg e), some e)

/-- Sequencing with early exit: a raised error skips the rest of the run. -/
def andThen (r : GenState × Option String) (k : GenState → GenState × Option String) :
    GenState × Option String :=
  match r with
  | (st, none) => k st
  | (st, some e) => (st, some e)

/-- Run a per-element step over a list, stopping at the first raised error. -/
def genList {α : Type} (f : GenState → α → GenState × Option String) :
    GenState → List α → GenState × Option String
  | st, [] => (st, none)
  | st, x :: rest =>
    match f st x with
    | (st', none) => genList f st' rest
    | (st', some e) => (st', some e)

/-- The per-schema body of the model-generation loop. -/
def genSchema (fuel : Nat) (tpl : Templates) (components : List (String × SchemaNode))
    (st : GenState) (entry : String × SchemaNode) : GenState × Option String :=
  let schemaName := entry.1
  let st := logAt st "DEBUG" ("Processing schema: " ++ schemaName ++ "...")
  match mergeComplexSchema fuel entry.2 components with
  | none => (st, some "TypeError")
  | some sch =>
    match sch.xOneOfUnion with
    | some unionTypes =>
      let st := logAt st "DEBUG" ("Detected oneOf union in schema: " ++ schemaName)
      match tpl.one_of_union with
      | some render =>
        tryArtifact st ("models/" ++ strToLower schemaName ++ ".py") (render ⟨schemaName, unionTypes⟩)
          (fun e => "Error generating oneOf union model: " ++ e)
      | none => (st, none)
    | none =>
      match sch.properties with
      | some props =>
        let st := logAt st "DEBUG" ("Building properties for: " ++ schemaName)
        let processed := buildProcessedProperties props
        let st := logAt st "DEBUG" ("Checking for enum fields in: " ++ schemaName)
        let pe := processEnums schemaName processed
        let importsList := gatherImportsForProps pe.1
        match tpl.model_class with
        | some render =>
          let st := logAt st "INFO" ("Rendering model_class template for: " ++ schemaName)
          tryArtifact st ("models/" ++ strToLower schemaName ++ ".py")
            (render ⟨schemaName, sch, some pe.1, importsList, pe.2⟩)
            (fun e => "Error generating model for " ++ schemaName ++ ": " ++ e)
        | none => (st, none)
      | none =>
        let st := logAt st "WARN"
          ("Schema " ++ schemaName ++ " has no properties; creating empty model.")
        match tpl.model_class with
        | some render =>
          tryArtifact st ("models/" ++ strToLower schemaName ++ ".py")
            (render ⟨schemaName, sch, none, [], []⟩)
            (fun e => "Error generating empty model for " ++ schemaName ++ ": " ++ e)
        | none => (st, none)

/-- The per-tag body of the route-generation loop. -/
def genRouteFile (render : RoutesCtx → Except String String)
    (st : GenState) (g : String × List GroupMember) : GenState × Option String :=
  let st := logAt st "DEBUG" ("Rendering api_routes for tag: " ++ g.1)
  tryArtifact st ("apis/" ++ strToLower g.1 ++ ".py") (render ⟨g.1, g.2⟩)
    (fun e => "Error generating routes for tag " ++ g.1 ++ ": " ++ e)

/-- The `__init__.py` aggregator content. -/
def aggregatorContent (tags : List String) : String :=
  "from fastapi import APIRouter\n\nrouter = APIRouter()\n" ++
  String.join (tags.map fun tag =>
    "from ." ++ strToLower tag ++ " import router as " ++ strToLower tag ++ "_router\n") ++
  "\n" ++
  String.join (tags.map fun tag =>
    "router.include_router(" ++ strToLower tag ++ "_router)\n")

/-- `generateAggregatorFile`: skip (with an info diagnostic) when no group exists,
otherwise write `apis/__init__.py` unconditionally. -/
def generateAggregatorFile (st : GenState) (pathsByTag : List (String × List GroupMember)) :
    GenState :=
  match pathsByTag with
  | [] => logAt st "INFO" "No tagged paths found. Skipping aggregator file."
  | _ =>
    let st := logAt st "INFO" "Generating aggregator file for multiple tags..."
    { st with files := st.files ++ [("apis/__init__.py", aggregatorContent (pathsByTag.map (·.1)))] }

/-- The body of `generate` inside its outer `try`. -/
def generateCore (fuel : Nat) (tpl : Templates) (api : ApiSpec) (st : GenState) :
    GenState × Option String :=
  let st := logAt st "INFO" "Starting generation process..."
  let step1 : GenState × Option String :=
    match tpl.main with
    | some r => tryArtifact (logAt st "INFO" "Generating main.py...") "main.py" r
        (fun e => "Error generating main.py: " ++ e)
    | none => (st, none)
  andThen step1 fun st =>
  let step2 : GenState × Option String :=
    match tpl.requirements with
    | some r => tryArtifact (logAt st "INFO" "Generating requirements.txt...") "requirements.txt" r
        (fun e => "Error generating requirements.txt: " ++ e)
    | none => (st, none)
  andThen step2 fun st =>
  let step3 : GenState × Option String :=
    match tpl.readme with
    | some r => tryArtifact (logAt st "INFO" "Generating README.md...") "README.md" r
        (fun e => "Error generating README.md: " ++ e)
    | none => (st, none)
  andThen step3 fun st =>
  andThen (genList (genSchema fuel tpl api.schemas) st api.schemas) fun st =>
  match api.paths, tpl.api_routes with
  | some paths, some render =>
    let st := logAt st "INFO" "Generating route files..."
    let pathsByTag := groupPathsByTag paths
    andThen (genList (genRouteFile render) st pathsByTag) fun st =>
    (generateAggregatorFile st pathsByTag, none)
  | _, _ => (logAt st "INFO" "No paths or no api_routes template. Skipping routes.", none)

/-- `generate`: run the pipeline; on any raised error, the outer `catch` emits an
error-level diagnostic and re-raises to the caller. On success, log completion. -/
def generate (fuel : Nat) (tpl : Templates) (api : ApiSpec) (st : GenState) :
    GenState × Option String :=
  match generateCore fuel tpl api st with
  | (st', none) => (logAt st' "INFO" "Python FastAPI Code Generation complete.", none)
  | (st', some e) => (logAt st' "ERROR" ("Generation failed: " ++ e), some e)

/-! ## Generic lemmas about the JS-object and set helpers -/

theorem sdata_append (a b : String) : (a ++ b).data = a.data ++ b.data := by
  cases a; cases b; rfl

theorem string_eta (s : String) : String.mk s.data = s := by
  cases s; rfl

theorem alookup_objUpsert {α : Type} (l : List (String × α)) (k k' : String) (v : α) :
    alookup k (objUpsert l k' v) = if k' = k then some v else alookup k l := by
  induction l with
  | nil => simp only [objUpsert, alookup]
  | cons hd tl ih =>
    obtain ⟨a, b⟩ := hd
    by_cases h1 : a = k'
    · subst h1
      by_cases h2 : a = k
      · subst h2; simp [objUpsert, alookup]
      · simp [objUpsert, alookup, h2, Ne.symm h2]
    · by_cases h2 : a = k
      · subst h2
        simp [objUpsert, alookup, h1, Ne.symm h1]
      · simp [objUpsert, alookup, h1, h2, ih]

theorem alookup_eq_none_of_not_mem_keys {α : Type} {l : List (String × α)} {k : String}
    (h : k ∉ l.map Prod.fst) : alookup k l = none := by
  induction l with
  | nil => rfl
  | cons hd tl ih =>
    obtain ⟨a, b⟩ := hd
    simp only [List.map_cons, List.mem_cons, not_or] at h
    have hne : ¬ (a = k) := fun h' => h.1 h'.symm
    simp only [alookup, if_neg hne]
    exact ih h.2

theorem alookup_objMerge {α : Type} (a b : List (String × α)) (k : String)
    (hb : (b.map Prod.fst).Nodup) :
    alookup k (objMerge a b) = (alookup k b).or (alookup k a) := by
  induction b generalizing a with
  | nil => simp [objMerge, alookup, Option.or]
  | cons hd tl ih =>
    obtain ⟨kb, vb⟩ := hd
    simp only [List.map_cons, List.nodup_cons] at hb
    have step : objMerge a ((kb, vb) :: tl) = objMerge (objUpsert a kb vb) tl := rfl
    rw [step, ih _ hb.2, alookup_objUpsert]
    by_cases h : kb = k
    · subst h
      rw [alookup_eq_none_of_not_mem_keys hb.1]
      simp [alookup, Option.or]
    · simp [alookup, h, Option.or]

theorem mem_foldl_dedup (l acc : List String) (x : String) :
    (x ∈ l.foldl (fun acc y => if y ∈ acc then acc else acc ++ [y]) acc) ↔
      x ∈ acc ∨ x ∈ l := by
  induction l generalizing acc with
  | nil => simp
  | cons a tl ih =>
    simp only [List.foldl_cons, ih, List.mem_cons]
    by_cases h : a ∈ acc
    · simp only [if_pos h]
      constructor
      · rintro (hx | hx)
        · exact Or.inl hx
        · exact Or.inr (Or.inr hx)
      · rintro (hx | hx | hx)
        · exact Or.inl hx
        · exact Or.inl (hx ▸ h)
        · exact Or.inr hx
    · simp only [if_neg h, List.mem_append, List.mem_singleton]
      tauto

theorem mem_dedupFirst (l : List String) (x : String) : x ∈ dedupFirst l ↔ x ∈ l := by
  simp [dedupFirst, mem_foldl_dedup]

theorem nodup_foldl_dedup (l acc : List String) (hacc : acc.Nodup) :
    (l.foldl (fun acc y => if y ∈ acc then acc else acc ++ [y]) acc).Nodup := by
  induction l generalizing acc with
  | nil => exact hacc
  | cons a tl ih =>
    simp only [List.foldl_cons]
    by_cases h : a ∈ acc
    · rw [if_pos h]; exact ih _ hacc
    · rw [if_neg h]
      refine ih _ ?_
      rw [List.nodup_append]
      refine ⟨hacc, List.nodup_singleton a, ?_⟩
      intro x hx hxa
      simp only [List.mem_singleton] at hxa
      subst hxa
      exact h hx

theorem nodup_dedupFirst (l : List String) : (dedupFirst l).Nodup :=
  nodup_foldl_dedup l [] List.nodup_nil

/-! ## NameSanitizer lemmas (claim C4) -/

/-- Whether the first character of `s` differs from `c` (vacuously true for `""`). -/
def headIsnt (c : Char) (s : String) : Bool :=
  match s.data with
  | [] => true
  | d :: _ => d ≠ c

/-- Facts about the concrete reserved-word table: no reserved word starts with a
digit or an underscore, none is empty, and appending `_` to a reserved word never
lands in the table again. -/
theorem reserved_facts : ∀ w ∈ PYTHON_RESERVED_WORDS,
    startsWithDigit w = false ∧ (w ++ "_") ∉ PYTHON_RESERVED_WORDS ∧
    headIsnt '_' w = true ∧ w.data ≠ [] := by decide

theorem word_sanitizeChar (c : Char) : isWordChar (if isWordChar c then c else '_') = true := by
  by_cases h : isWordChar c
  · rwa [if_pos h]
  · rw [if_neg h]; rfl

theorem allWord_sanitizeBase (s : String) : ∀ c ∈ (sanitizeBase s).data, isWordChar c := by
  intro c hc
  simp only [sanitizeBase, List.mem_map] at hc
  obtain ⟨a, _, rfl⟩ := hc
  exact word_sanitizeChar a

theorem sanitizeBase_of_allWord (s : String) (h : ∀ c ∈ s.data, isWordChar c) :
    sanitizeBase s = s := by
  cases s with
  | mk data =>
    unfold sanitizeBase
    refine congrArg String.mk ?_
    calc data.map (fun c => if isWordChar c then c else '_')
        = data.map id := List.map_congr_left (fun a ha => if_pos (h a ha))
      _ = data := List.map_id data

theorem startsWithDigit_append (a b : String) (ha : a.data ≠ []) :
    startsWithDigit (a ++ b) = startsWithDigit a := by
  cases a with
  | mk data =>
    cases data with
    | nil => exact absurd rfl ha
    | cons c cs =>
      cases b with
      | mk bdata => rfl

/-- The three structural guarantees of `sanitizeName`: the result is made of
word characters only, never starts with a digit, and is never a reserved word. -/
theorem sanitizeName_shape (s : String) :
    (∀ c ∈ (sanitizeName s).data, isWordChar c) ∧
    startsWithDigit (sanitizeName s) = false ∧
    sanitizeName s ∉ PYTHON_RESERVED_WORDS := by
  unfold sanitizeName
  by_cases hr : sanitizeBase s ∈ PYTHON_RESERVED_WORDS
  · obtain ⟨hd, happ, _, hne⟩ := reserved_facts _ hr
    simp only [if_pos hr]
    rw [startsWithDigit_append _ _ hne, hd]
    simp only [if_neg (by simp : ¬ (false = true))]
    refine ⟨?_, ?_, happ⟩
    · intro c hc
      rw [sdata_append] at hc
      rcases List.mem_append.mp hc with hc | hc
      · exact allWord_sanitizeBase s c hc
      · simp only [List.mem_singleton] at hc
        subst hc; rfl
    · rw [startsWithDigit_append _ _ hne, hd]
  · simp only [if_neg hr]
    by_cases hdig : startsWithDigit (sanitizeBase s)
    · simp only [if_pos hdig]
      refine ⟨?_, ?_, ?_⟩
      · intro c hc
        rw [sdata_append] at hc
        rcases List.mem_append.mp hc with hc | hc
        · simp only [List.mem_singleton] at hc
          subst hc; rfl
        · exact allWord_sanitizeBase s c hc
      · have : ("_" ++ sanitizeBase s).data = '_' :: (sanitizeBase s).data := by
          rw [sdata_append]; rfl
        simp [startsWithDigit, this]
      · intro hmem
        obtain ⟨_, _, hhead, _⟩ := reserved_facts _ hmem
        have : ("_" ++ sanitizeBase s).data = '_' :: (sanitizeBase s).data := by
          rw [sdata_append]; rfl
        simp [headIsnt, this] at hhead
    · simp only [if_neg hdig]
      exact ⟨allWord_sanitizeBase s, Bool.not_eq_true _ ▸ (by simpa using hdig), hr⟩

/-- C4 — `sanitizeName` is total (it is a Lean function), idempotent, and its
result never starts with a digit and is never exactly a Python reserved word. -/
theorem C4_sanitizeName_idempotent_and_safe (s : String) :
    sanitizeName (sanitizeName s) = sanitizeName s ∧
    startsWithDigit (sanitizeName s) = false ∧
    sanitizeName s ∉ PYTHON_RESERVED_WORDS := by
  obtain ⟨hword, hdig, hres⟩ := sanitizeName_shape s
  refine ⟨?_, hdig, hres⟩
  have key : ∀ y : String, (∀ c ∈ y.data, isWordChar c) → y ∉ PYTHON_RESERVED_WORDS →
      startsWithDigit y = false → sanitizeName y = y := by
    intro y hw hr hd
    unfold sanitizeName
    simp only [sanitizeBase_of_allWord _ hw, if_neg hr, hd, Bool.false_eq_true, if_false]
  exact key _ hword hres hdig

/-! ## TypeMapper (claim C5) -/

/-- C5 — in `getPythonType`, a (truthy) `$ref` always wins: the result is the
sanitized last path segment of the reference, regardless of `type`, `format` and
`items`; and with both `ref` and `type` absent the result is the `Any` token. -/
theorem C5_typeMapper_ref_precedence :
    (∀ (t f : Option String) (it : Option ItemsNode) (r : String), r ≠ "" →
      getPythonType t f it (some r) = sanitizeName (lastSegment r)) ∧
    (∀ (f : Option String) (it : Option ItemsNode), getPythonType none f it none = "Any") := by
  constructor
  · intro t f it r hr
    have ht : strTruthy (some r) = true := by simpa [strTruthy] using hr
    unfold getPythonType getPythonTypeOf
    rw [ht]
    rfl
  · intro f it
    unfold getPythonType getPythonTypeOf
    rfl

/-- C5 witness: the reference wins over a conflicting declared type, and the
fully-absent input maps to `Any`. -/
theorem C5_witness :
    ("#/components/schemas/Pet" ≠ "" ∧
      getPythonType (some "integer") (some "int64") none (some "#/components/schemas/Pet")
        = "Pet") ∧
    getPythonType none none none none = "Any" :=
  ⟨⟨by decide, C5_typeMapper_ref_precedence.1 (some "integer") (some "int64") none
      "#/components/schemas/Pet" (by decide)⟩,
    C5_typeMapper_ref_precedence.2 none none⟩

/-! ## Literal normalization in property processing (claim C6) -/

/-- A property schema whose `example` is the boolean `true`. -/
def c6PropNode : SchemaNode :=
  .mk (some "boolean") none none none none none none none none none
    (some (.bool true)) none none none

/-- C6 counterexample — a boolean `example` is NOT normalized to the Python
boolean literal: the processed property keeps the raw boolean, while the claim
requires the boolean literal string `True` (as is done for `default`). -/
theorem C6_counterexample :
    (processProp "flag" c6PropNode).exampleVal = some (JsonVal.bool true) ∧
    some (JsonVal.bool true) ≠ some (JsonVal.str "True") :=
  ⟨rfl, by decide⟩

/-- C6 amended — `default` is normalized by runtime kind (boolean → Python
boolean literal, string → quoted string, anything else left as-is), but
`example` is only normalized for strings: a boolean `example` is left as-is. -/
theorem C6_literal_normalization :
    (∀ (pn : String) (ps : SchemaNode),
      (processProp pn ps).default = normalizeDefault ps.default ∧
      (processProp pn ps).exampleVal = normalizeExample ps.exampleVal) ∧
    (∀ b, normalizeDefault (some (.bool b)) = some (.str (if b then "True" else "False"))) ∧
    (∀ s, normalizeDefault (some (.str s)) = some (.str ("\"" ++ s ++ "\""))) ∧
    (∀ v : Option JsonVal, (∀ b, v ≠ some (.bool b)) → (∀ s, v ≠ some (.str s)) →
      normalizeDefault v = v) ∧
    (∀ s, normalizeExample (some (.str s)) = some (.str ("\"" ++ s ++ "\""))) ∧
    (∀ v : Option JsonVal, (∀ s, v ≠ some (.str s)) → normalizeExample v = v) := by
  refine ⟨fun pn ps => ⟨rfl, rfl⟩, fun b => rfl, fun s => rfl, ?_, fun s => rfl, ?_⟩
  · intro v hb hs
    match v with
    | none => rfl
    | some (.bool b) => exact absurd rfl (hb b)
    | some (.str s) => exact absurd rfl (hs s)
    | some (.num n) => rfl
    | some .null => rfl
  · intro v hs
    match v with
    | none => rfl
    | some (.bool b) => rfl
    | some (.str s) => exact absurd rfl (hs s)
    | some (.num n) => rfl
    | some .null => rfl

/-- C6 witness: the amended normalization evaluated at concrete inputs. -/
theorem C6_literal_normalization_witness :
    (processProp "flag" c6PropNode).default = normalizeDefault c6PropNode.default ∧
    normalizeDefault (some (.bool true)) = some (.str "True") ∧
    (∀ b, some (JsonVal.num 3) ≠ some (JsonVal.bool b)) ∧
    normalizeDefault (some (JsonVal.num 3)) = some (JsonVal.num 3) ∧
    normalizeExample (some (JsonVal.num 3)) = some (JsonVal.num 3) :=
  ⟨(C6_literal_normalization.1 "flag" c6PropNode).1,
    C6_literal_normalization.2.1 true,
    fun b => by cases b <;> decide,
    C6_literal_normalization.2.2.2.1 (some (JsonVal.num 3))
      (fun b => by cases b <;> decide)
      (fun s h => JsonVal.noConfusion (Option.some.inj h)),
    C6_literal_normalization.2.2.2.2.2 (some (JsonVal.num 3))
      (fun s h => JsonVal.noConfusion (Option.some.inj h))⟩

/-! ## Processed-property map keyed by sanitized name (claim C9) -/

/-- The claim-side reading of the processed-property map: for a key `k`, the
winning entry is built from the **last** property (in declaration order) whose
sanitized name is `k`. -/
def specLastProp (k : String) : List (String × SchemaNode) → Option ProcessedProp
  | [] => none
  | (pn, ps) :: rest =>
    (specLastProp k rest).or (if sanitizeName pn = k then some (processProp pn ps) else none)

theorem alookup_foldl_upsert (props : List (String × SchemaNode))
    (acc : List (String × ProcessedProp)) (k : String) :
    alookup k (props.foldl
        (fun acc pp => objUpsert acc (sanitizeName pp.1) (processProp pp.1 pp.2)) acc)
      = (specLastProp k props).or (alookup k acc) := by
  induction props generalizing acc with
  | nil => simp [specLastProp, Option.none_or]
  | cons hd tl ih =>
    obtain ⟨pn, ps⟩ := hd
    simp only [List.foldl_cons, specLastProp]
    rw [ih, Option.or_assoc]
    congr 1
    rw [alookup_objUpsert]
    by_cases h : sanitizeName pn = k
    · simp only [if_pos h]; rfl
    · simp only [if_neg h, Option.none_or]

/-- A simple `{type: string}` property schema. -/
def strFieldNode : SchemaNode :=
  .mk (some "string") none none none none none none none none none none none none none

/-- A simple `{type: integer}` property schema. -/
def intFieldNode : SchemaNode :=
  .mk (some "integer") none none none none none none none none none none none none none

/-- C9 — `processedProperties` is keyed by the sanitized property name, so of any
properties whose names sanitize to the same identifier, only the last one in
declaration order survives (the lookup of any key equals the entry built from
the last matching property); concretely, `a-b` followed by `a b` (both
sanitizing to `a_b`) leaves only the entry of `a b`. -/
theorem C9_processed_keyed_by_sanitized_name :
    (∀ (props : List (String × SchemaNode)) (k : String),
      alookup k (buildProcessedProperties props) = specLastProp k props) ∧
    buildProcessedProperties [("a-b", strFieldNode), ("a b", intFieldNode)]
      = [("a_b", processProp "a b" intFieldNode)] := by
  constructor
  · intro props k
    have h := alookup_foldl_upsert props [] k
    simpa [buildProcessedProperties, Option.or_none, alookup] using h
  · rfl

/-! ## Schema resolution lemmas (claims C1, C3, C10) -/

/-- One step of the `allOf` fold of `mergeComplexSchema` at recursion fuel `n`. -/
def mergeStep (n : Nat) (comps : List (String × SchemaNode)) :
    Option SchemaNode → SchemaNode → Option SchemaNode :=
  fun acc sub =>
    match acc with
    | none => none
    | some merged =>
      match effNode comps sub with
      | none => none
      | some eff =>
        match mergeComplexSchema n eff comps with
        | none => none
        | some resolved => some (mergeInto merged resolved)

theorem mergeComplexSchema_succ (k : Nat) (schema : SchemaNode)
    (comps : List (String × SchemaNode)) :
    mergeComplexSchema (k + 1) schema comps =
      match schema.allOf with
      | some subs => subs.foldl (mergeStep k comps) (some emptyObjNode)
      | none =>
        match schema.oneOf with
        | some subs => some (unionMarker subs)
        | none => some schema := rfl

theorem mergeInto_xOneOfUnion (b e : SchemaNode) :
    (mergeInto b e).xOneOfUnion = b.xOneOfUnion := by
  cases b; rfl

theorem mergeInto_allOf (b e : SchemaNode) : (mergeInto b e).allOf = b.allOf := by
  cases b; rfl

theorem mergeInto_oneOf (b e : SchemaNode) : (mergeInto b e).oneOf = b.oneOf := by
  cases b; rfl

theorem foldl_mergeStep_none (n : Nat) (comps : List (String × SchemaNode))
    (subs : List SchemaNode) : subs.foldl (mergeStep n comps) none = none := by
  induction subs with
  | nil => rfl
  | cons sub tl ih => simpa [mergeStep] using ih

theorem foldl_mergeStep_xOneOfUnion (n : Nat) (comps : List (String × SchemaNode))
    (subs : List SchemaNode) :
    ∀ (a : SchemaNode) (m : SchemaNode),
      subs.foldl (mergeStep n comps) (some a) = some m → m.xOneOfUnion = a.xOneOfUnion := by
  induction subs with
  | nil =>
    intro a m h
    simp only [List.foldl_nil] at h
    cases h; rfl
  | cons sub tl ih =>
    intro a m h
    simp only [List.foldl_cons] at h
    cases he : effNode comps sub with
    | none =>
      rw [show mergeStep n comps (some a) sub = none by simp [mergeStep, he]] at h
      rw [foldl_mergeStep_none] at h
      exact Option.noConfusion h
    | some eff =>
      cases hm : mergeComplexSchema n eff comps with
      | none =>
        rw [show mergeStep n comps (some a) sub = none by simp [mergeStep, he, hm]] at h
        rw [foldl_mergeStep_none] at h
        exact Option.noConfusion h
      | some resolved =>
        rw [show mergeStep n comps (some a) sub = some (mergeInto a resolved) by
          simp [mergeStep, he, hm]] at h
        rw [ih _ _ h, mergeInto_xOneOfUnion]

/-- `clearOneOf` drops the `oneOf` field of a node. -/
def clearOneOf : SchemaNode → SchemaNode
  | .mk t f r ps rq ao _ it ev df ex pt ds xu => .mk t f r ps rq ao none it ev df ex pt ds xu

theorem clearOneOf_allOf (x : SchemaNode) : (clearOneOf x).allOf = x.allOf := by
  cases x; rfl

/-- C1 amended — on a node that declares `allOf`, `mergeComplexSchema` performs the
`allOf` merge and ignores `oneOf` entirely (the result is the same as with `oneOf`
removed), and the result is never a union marker. -/
theorem C1_allOf_wins_over_oneOf (n : Nat) (schema : SchemaNode)
    (comps : List (String × SchemaNode)) (subs : List SchemaNode)
    (h : schema.allOf = some subs) :
    mergeComplexSchema n schema comps = mergeComplexSchema n (clearOneOf schema) comps ∧
    (∀ m, mergeComplexSchema n schema comps = some m → m.xOneOfUnion = none) := by
  cases n with
  | zero => exact ⟨rfl, fun m hm => Option.noConfusion hm⟩
  | succ k =>
    constructor
    · rw [mergeComplexSchema_succ, mergeComplexSchema_succ, h, clearOneOf_allOf, h]
    · intro m hm
      rw [mergeComplexSchema_succ, h] at hm
      exact foldl_mergeStep_xOneOfUnion k comps subs emptyObjNode m hm

/-- A `$ref` member node. -/
def refSchema (r : String) : SchemaNode :=
  .mk none none (some r) none none none none none none none none none none none

/-- An inline object member `{properties: ps, required: req}`. -/
def objSchema (ps : List (String × SchemaNode)) (req : List String) : SchemaNode :=
  .mk none none none (some ps) (some req) none none none none none none none none none

/-- A node declaring **both** `allOf` (one inline member with property `a`) and
`oneOf` (one reference member) — the ambiguous case of the claim. -/
def bothCompNode : SchemaNode :=
  .mk none none none none none (some [objSchema [("a", intFieldNode)] ["a"]])
    (some [refSchema "#/components/schemas/Foo"]) none none none none none none none

/-- C1 counterexample — on a node with both `allOf` and `oneOf`, the resolver
returns the merged **object** shape of the `allOf` members (property `a` present,
no `xOneOfUnion` marker), not the union marker over the `oneOf` list that the
claim requires. -/
theorem C1_counterexample :
    (mergeComplexSchema 2 bothCompNode []).map SchemaNode.xOneOfUnion = some none ∧
    (mergeComplexSchema 2 bothCompNode []).map (fun m => (m.properties.getD []).map Prod.fst)
      = some ["a"] ∧
    (none : Option (List String)) ≠ some ["Foo"] :=
  ⟨rfl, rfl, by decide⟩

/-- C1 witness: the amended theorem applied to the concrete ambiguous node. -/
theorem C1_allOf_wins_witness :
    bothCompNode.allOf = some [objSchema [("a", intFieldNode)] ["a"]] ∧
    mergeComplexSchema 2 bothCompNode []
      = mergeComplexSchema 2 (clearOneOf bothCompNode) [] ∧
    (∀ m, mergeComplexSchema 2 bothCompNode [] = some m → m.xOneOfUnion = none) :=
  ⟨rfl,
    (C1_allOf_wins_over_oneOf 2 bothCompNode [] [objSchema [("a", intFieldNode)] ["a"]] rfl).1,
    (C1_allOf_wins_over_oneOf 2 bothCompNode [] [objSchema [("a", intFieldNode)] ["a"]] rfl).2⟩

theorem mergeComplexSchema_passthrough (m : Nat) (c : SchemaNode)
    (comps : List (String × SchemaNode)) (hA : c.allOf = none) (hO : c.oneOf = none) :
    mergeComplexSchema (m + 1) c comps = some c := by
  simp only [mergeComplexSchema_succ, hA, hO]

theorem mergeComplexSchema_oneOf (m : Nat) (c : SchemaNode)
    (comps : List (String × SchemaNode)) (l : List SchemaNode)
    (hA : c.allOf = none) (hO : c.oneOf = some l) :
    mergeComplexSchema (m + 1) c comps = some (unionMarker l) := by
  simp only [mergeComplexSchema_succ, hA, hO]

theorem mergeInto_unionMarker (acc : SchemaNode) (l : List SchemaNode) :
    mergeInto acc (unionMarker l) = acc := by
  cases acc; rfl

/-- Replace the `allOf` member list of a node. -/
def setAllOf : SchemaNode → List SchemaNode → SchemaNode
  | .mk t f r ps rq _ oo it ev df ex pt ds xu, l => .mk t f r ps rq (some l) oo it ev df ex pt ds xu

theorem setAllOf_allOf (x : SchemaNode) (l : List SchemaNode) :
    (setAllOf x l).allOf = some l := by
  cases x; rfl

/-- C10 amended — during an `allOf` merge, a member whose effective node (itself,
or its resolved `$ref` target) declares `oneOf` **and no `allOf`** resolves to a
union marker with no `properties` and no `required`, so merging it into the
accumulator is the identity: the member contributes nothing, and dropping it
from the `allOf` list leaves the resolution of the whole node unchanged. -/
theorem C10_oneOf_member_contributes_nothing (k : Nat)
    (comps : List (String × SchemaNode)) (sub c : SchemaNode) (l : List SchemaNode)
    (heff : effNode comps sub = some c)
    (hallOf : c.allOf = none) (honeOf : c.oneOf = some l) :
    (unionMarker l).properties = none ∧
    (unionMarker l).required = none ∧
    mergeComplexSchema (k + 1) c comps = some (unionMarker l) ∧
    (∀ acc : SchemaNode, mergeInto acc (unionMarker l) = acc) ∧
    (∀ (acc : SchemaNode) (rest : List SchemaNode),
      (sub :: rest).foldl (mergeStep (k + 1) comps) (some acc)
        = rest.foldl (mergeStep (k + 1) comps) (some acc)) ∧
    (∀ (node : SchemaNode) (pre rest : List SchemaNode),
      node.allOf = some (pre ++ sub :: rest) →
      mergeComplexSchema (k + 2) node comps
        = mergeComplexSchema (k + 2) (setAllOf node (pre ++ rest)) comps) := by
  have hu : mergeComplexSchema (k + 1) c comps = some (unionMarker l) :=
    mergeComplexSchema_oneOf k c comps l hallOf honeOf
  have hstep : ∀ a : SchemaNode, mergeStep (k + 1) comps (some a) sub = some a := by
    intro a
    simp only [mergeStep, heff, hu, mergeInto_unionMarker]
  refine ⟨rfl, rfl, hu, fun acc => mergeInto_unionMarker acc l, ?_, ?_⟩
  · intro acc rest
    simp only [List.foldl_cons, hstep]
  · intro node pre rest h
    rw [mergeComplexSchema_succ, mergeComplexSchema_succ, h, setAllOf_allOf]
    simp only [List.foldl_append]
    cases hA : pre.foldl (mergeStep (k + 1) comps) (some emptyObjNode) with
    | none => rw [foldl_mergeStep_none, foldl_mergeStep_none]
    | some a => simp only [List.foldl_cons, hstep]

/-- An `allOf` wrapper whose only member declares both `allOf` and `oneOf`. -/
def c10WrapperNode : SchemaNode :=
  .mk none none none none none (some [bothCompNode]) none none none none none none none none

/-- C10 counterexample — an `allOf` member that declares `oneOf` **together with**
`allOf` does not resolve to a union marker: its `allOf` content (property `a`)
is merged into the entity, so the member does not contribute nothing. -/
theorem C10_counterexample :
    (mergeComplexSchema 3 c10WrapperNode []).map
        (fun m => (m.properties.getD []).map Prod.fst) = some ["a"] ∧
    (["a"] : List String) ≠ [] :=
  ⟨rfl, by decide⟩

/-- A component whose body is a pure `oneOf` union. -/
def unionTargetNode : SchemaNode :=
  .mk none none none none none none (some [refSchema "#/components/schemas/Foo"])
    none none none none none none none

/-- C10 witness: the amended theorem applied to a `$ref` member resolving to a
pure `oneOf` component. -/
theorem C10_witness :
    effNode [("U", unionTargetNode)] (refSchema "#/components/schemas/U")
      = some unionTargetNode ∧
    unionTargetNode.allOf = none ∧
    unionTargetNode.oneOf = some [refSchema "#/components/schemas/Foo"] ∧
    ((unionMarker [refSchema "#/components/schemas/Foo"]).properties = none ∧
     (unionMarker [refSchema "#/components/schemas/Foo"]).required = none ∧
     mergeComplexSchema 2 unionTargetNode [("U", unionTargetNode)]
       = some (unionMarker [refSchema "#/components/schemas/Foo"]) ∧
     (∀ acc : SchemaNode,
       mergeInto acc (unionMarker [refSchema "#/components/schemas/Foo"]) = acc) ∧
     (∀ (acc : SchemaNode) (rest : List SchemaNode),
       ((refSchema "#/components/schemas/U") :: rest).foldl
           (mergeStep 2 [("U", unionTargetNode)]) (some acc)
         = rest.foldl (mergeStep 2 [("U", unionTargetNode)]) (some acc)) ∧
     (∀ (node : SchemaNode) (pre rest : List SchemaNode),
       node.allOf = some (pre ++ (refSchema "#/components/schemas/U") :: rest) →
       mergeComplexSchema 3 node [("U", unionTargetNode)]
         = mergeComplexSchema 3 (setAllOf node (pre ++ rest)) [("U", unionTargetNode)])) :=
  ⟨rfl, rfl, rfl,
    C10_oneOf_member_contributes_nothing 1 [("U", unionTargetNode)]
      (refSchema "#/components/schemas/U") unionTargetNode
      [refSchema "#/components/schemas/Foo"] rfl rfl rfl⟩

/-- Resolve each `allOf` member to its effective node (`none` if any reference
fails to resolve). -/
def effNodes (comps : List (String × SchemaNode)) : List SchemaNode → Option (List SchemaNode)
  | [] => some []
  | s :: rest =>
    match effNode comps s, effNodes comps rest with
    | some c, some cs => some (c :: cs)
    | _, _ => none

/-- The claim-side winning definition for a property key during an `allOf` merge:
the binding of the **last** member (declaration order) that defines the key. -/
def lastMemberProp (k : String) : List SchemaNode → Option SchemaNode
  | [] => none
  | c :: rest => (lastMemberProp k rest).or (alookup k (c.properties.getD []))

theorem props_mergeInto (b e : SchemaNode) (ps0 : List (String × SchemaNode))
    (hb : b.properties = some ps0) :
    (mergeInto b e).properties = some (objMerge ps0 (e.properties.getD [])) := by
  cases b with
  | mk t f r ps rq ao oo it ev df ex pt ds xu =>
    simp only [SchemaNode.properties] at hb
    subst hb
    cases e with
    | mk et ef er eps erq eao eoo eit eev edf eex ept eds exu =>
      cases eps <;> rfl

theorem req_mergeInto_none (b e : SchemaNode) (r0 : List String)
    (hb : b.required = some r0) (he : e.required = none) :
    (mergeInto b e).required = some r0 := by
  cases b with
  | mk t f r ps rq ao oo it ev df ex pt ds xu =>
    simp only [SchemaNode.required] at hb
    subst hb
    cases e with
    | mk et ef er eps erq eao eoo eit eev edf eex ept eds exu =>
      simp only [SchemaNode.required] at he
      subst he
      rfl

theorem req_mergeInto_some (b e : SchemaNode) (r0 ers : List String)
    (hb : b.required = some r0) (he : e.required = some ers) :
    (mergeInto b e).required = some (dedupFirst (r0 ++ ers)) := by
  cases b with
  | mk t f r ps rq ao oo it ev df ex pt ds xu =>
    simp only [SchemaNode.required] at hb
    subst hb
    cases e with
    | mk et ef er eps erq eao eoo eit eev edf eex ept eds exu =>
      simp only [SchemaNode.required] at he
      subst he
      rfl

theorem foldl_mergeInto_props (cs : List SchemaNode) :
    ∀ (a : SchemaNode) (ps0 : List (String × SchemaNode)), a.properties = some ps0 →
      (cs.foldl mergeInto a).properties
        = some (cs.foldl (fun cur c => objMerge cur (c.properties.getD [])) ps0) := by
  induction cs with
  | nil => intro a ps0 h; simpa using h
  | cons c tl ih =>
    intro a ps0 h
    simp only [List.foldl_cons]
    exact ih (mergeInto a c) _ (props_mergeInto a c ps0 h)

theorem foldl_mergeInto_req (cs : List SchemaNode) :
    ∀ (a : SchemaNode) (r0 : List String), a.required = some r0 → r0.Nodup →
      ∃ R, (cs.foldl mergeInto a).required = some R ∧ R.Nodup ∧
        (∀ x, x ∈ R ↔ x ∈ r0 ∨ ∃ c ∈ cs, x ∈ c.required.getD []) := by
  induction cs with
  | nil =>
    intro a r0 h hn
    exact ⟨r0, h, hn, by simp⟩
  | cons c tl ih =>
    intro a r0 h hn
    cases he : c.required with
    | none =>
      obtain ⟨R, hR, hRn, hmem⟩ := ih (mergeInto a c) r0 (req_mergeInto_none a c r0 h he) hn
      refine ⟨R, by simpa [List.foldl_cons] using hR, hRn, ?_⟩
      intro x
      rw [hmem]
      simp only [List.mem_cons, he, Option.getD_none, List.not_mem_nil]
      constructor
      · rintro (hx | ⟨c', hc', hx⟩)
        · exact Or.inl hx
        · exact Or.inr ⟨c', Or.inr hc', hx⟩
      · rintro (hx | ⟨c', (rfl | hc'), hx⟩)
        · exact Or.inl hx
        · exact absurd hx (by simp [he])
        · exact Or.inr ⟨c', hc', hx⟩
    | some ers =>
      obtain ⟨R, hR, hRn, hmem⟩ := ih (mergeInto a c) (dedupFirst (r0 ++ ers))
        (req_mergeInto_some a c r0 ers h he) (nodup_dedupFirst _)
      refine ⟨R, by simpa [List.foldl_cons] using hR, hRn, ?_⟩
      intro x
      rw [hmem, mem_dedupFirst]
      simp only [List.mem_append, List.mem_cons, he, Option.getD_some]
      constructor
      · rintro ((hx | hx) | ⟨c', hc', hx⟩)
        · exact Or.inl hx
        · exact Or.inr ⟨c, Or.inl rfl, by simpa [he] using hx⟩
        · exact Or.inr ⟨c', Or.inr hc', hx⟩
      · rintro (hx | ⟨c', (rfl | hc'), hx⟩)
        · exact Or.inl (Or.inl hx)
        · exact Or.inl (Or.inr (by simpa [he] using hx))
        · exact Or.inr ⟨c', hc', hx⟩

theorem alookup_foldl_objMerge (k : String) (cs : List SchemaNode) :
    ∀ ps0, (∀ c ∈ cs, ((c.properties.getD []).map Prod.fst).Nodup) →
      alookup k (cs.foldl (fun cur c => objMerge cur (c.properties.getD [])) ps0)
        = (lastMemberProp k cs).or (alookup k ps0) := by
  induction cs with
  | nil => intro ps0 _; simp [lastMemberProp, Option.none_or]
  | cons c tl ih =>
    intro ps0 h
    simp only [List.foldl_cons, lastMemberProp]
    rw [ih _ (fun c' hc' => h c' (List.mem_cons_of_mem _ hc')),
      alookup_objMerge ps0 _ k (h c (List.mem_cons_self _ _)), Option.or_assoc]

theorem foldl_mergeStep_flat (k : Nat) (comps : List (String × SchemaNode)) :
    ∀ (subs cs : List SchemaNode) (a : SchemaNode),
      effNodes comps subs = some cs →
      (∀ c ∈ cs, c.allOf = none ∧ c.oneOf = none) →
      subs.foldl (mergeStep (k + 1) comps) (some a) = some (cs.foldl mergeInto a) := by
  intro subs
  induction subs with
  | nil =>
    intro cs a h _
    simp only [effNodes] at h
    cases h; rfl
  | cons s tl ih =>
    intro cs a h hf
    cases he : effNode comps s with
    | none => simp [effNodes, he] at h
    | some c =>
      cases ht : effNodes comps tl with
      | none => simp [effNodes, he, ht] at h
      | some cs' =>
        have hcs : cs = c :: cs' := by
          simp only [effNodes, he, ht] at h
          exact (Option.some.inj h).symm
        subst hcs
        have hc := hf c (List.mem_cons_self _ _)
        have hstep : mergeStep (k + 1) comps (some a) s = some (mergeInto a c) := by
          simp only [mergeStep, he, mergeComplexSchema_passthrough k c comps hc.1 hc.2]
        simp only [List.foldl_cons, hstep]
        exact ih cs' (mergeInto a c) ht (fun c' hc' => hf c' (List.mem_cons_of_mem _ hc'))

/-- C3 — merging an `allOf` composition whose members (references resolved, all
flat object fragments with unique property keys) are processed in declaration
order: the merged entity's property map is the superimposition of the members'
properties (on a key collision the **last** defining member wins), and its
required list is the duplicate-free union of the members' required names. -/
theorem C3_allOf_merge_semantics (k : Nat) (node : SchemaNode)
    (comps : List (String × SchemaNode)) (subs cs : List SchemaNode)
    (hall : node.allOf = some subs)
    (hres : effNodes comps subs = some cs)
    (hflat : ∀ c ∈ cs, c.allOf = none ∧ c.oneOf = none)
    (hnodup : ∀ c ∈ cs, ((c.properties.getD []).map Prod.fst).Nodup) :
    ∃ m, mergeComplexSchema (k + 2) node comps = some m ∧
      (∃ P, m.properties = some P ∧ ∀ key, alookup key P = lastMemberProp key cs) ∧
      (∃ R, m.required = some R ∧ R.Nodup ∧
        ∀ x, x ∈ R ↔ ∃ c ∈ cs, x ∈ c.required.getD []) := by
  have hfold := foldl_mergeStep_flat k comps subs cs emptyObjNode hres hflat
  refine ⟨cs.foldl mergeInto emptyObjNode, ?_, ?_, ?_⟩
  · simp only [mergeComplexSchema_succ, hall]
    exact hfold
  · refine ⟨_, foldl_mergeInto_props cs emptyObjNode [] rfl, fun key => ?_⟩
    rw [alookup_foldl_objMerge key cs [] hnodup]
    simp [alookup, Option.or_none]
  · obtain ⟨R, hR, hRn, hmem⟩ := foldl_mergeInto_req cs emptyObjNode [] rfl List.nodup_nil
    exact ⟨R, hR, hRn, fun x => by rw [hmem]; simp⟩

/-- The `Base` component of the claim's scenario. -/
def baseComponentNode : SchemaNode := objSchema [("baseName", strFieldNode)] ["baseName"]

/-- The inline `{extraField: integer, required: [extraField]}` member. -/
def inlineExtraNode : SchemaNode := objSchema [("extraField", intFieldNode)] ["extraField"]

/-- `allOf: [ref(Base), {extraField...}]`. -/
def allOfScenarioNode : SchemaNode :=
  .mk none none none none none
    (some [refSchema "#/components/schemas/Base", inlineExtraNode])
    none none none none none none none none

/-- C3 witness: the merge semantics applied to the claim's `Base`/`extraField`
scenario, together with the concrete merged outcome — both properties present,
`required = [baseName, extraField]`. -/
theorem C3_allOf_merge_witness :
    allOfScenarioNode.allOf
      = some [refSchema "#/components/schemas/Base", inlineExtraNode] ∧
    effNodes [("Base", baseComponentNode)]
        [refSchema "#/components/schemas/Base", inlineExtraNode]
      = some [baseComponentNode, inlineExtraNode] ∧
    (∃ m, mergeComplexSchema 2 allOfScenarioNode [("Base", baseComponentNode)] = some m ∧
      (∃ P, m.properties = some P ∧
        ∀ key, alookup key P = lastMemberProp key [baseComponentNode, inlineExtraNode]) ∧
      (∃ R, m.required = some R ∧ R.Nodup ∧
        ∀ x, x ∈ R ↔ ∃ c ∈ [baseComponentNode, inlineExtraNode], x ∈ c.required.getD [])) ∧
    (mergeComplexSchema 2 allOfScenarioNode [("Base", baseComponentNode)]).map
        (fun m => (m.properties.getD []).map Prod.fst)
      = some ["baseName", "extraField"] ∧
    (mergeComplexSchema 2 allOfScenarioNode [("Base", baseComponentNode)]).map
        SchemaNode.required
      = some (some ["baseName", "extraField"]) := by
  refine ⟨rfl, rfl, ?_, rfl, rfl⟩
  exact C3_allOf_merge_semantics 0 allOfScenarioNode [("Base", baseComponentNode)]
    [refSchema "#/components/schemas/Base", inlineExtraNode]
    [baseComponentNode, inlineExtraNode] rfl rfl
    (by intro c hc; fin_cases hc <;> exact ⟨rfl, rfl⟩)
    (by intro c hc; fin_cases hc <;> decide)

/-! ## Operation grouping (claims C2, C7) -/

/-- The grouping key of a member (as computed by the loop for object operations). -/
def memberTag : GroupMember → String
  | (_, _, .obj tags) => opTagFromTags tags
  | (_, _, .nonObj) => "api"

/-- The members contributed by one path entry: its object operations, in method
order, paired with the path. -/
def pathMembers (pe : String × List (String × Operation)) : List GroupMember :=
  pe.2.filterMap (fun me =>
    match me.2 with
    | .nonObj => none
    | .obj tags => some (pe.1, me.1, Operation.obj tags))

/-- All grouped members in iteration order: paths first, then methods within a path. -/
def flatMembers (paths : List (String × List (String × Operation))) : List GroupMember :=
  paths.flatMap pathMembers

theorem alookup_tagInsert_self (acc : List (String × List GroupMember)) (t : String)
    (m : GroupMember) :
    alookup t (tagInsert acc t m) = some ((alookup t acc).getD [] ++ [m]) := by
  induction acc with
  | nil => simp [tagInsert, alookup]
  | cons hd tl ih =>
    obtain ⟨t', ms⟩ := hd
    by_cases h : t' = t
    · subst h
      simp [tagInsert, alookup]
    · simp [tagInsert, alookup, h, ih]

theorem alookup_tagInsert_ne (acc : List (String × List GroupMember)) (t t' : String)
    (m : GroupMember) (h : t' ≠ t) :
    alookup t' (tagInsert acc t m) = alookup t' acc := by
  induction acc with
  | nil => simp [tagInsert, alookup, Ne.symm h]
  | cons hd tl ih =>
    obtain ⟨t0, ms⟩ := hd
    by_cases h0 : t0 = t
    · subst h0
      simp [tagInsert, alookup, Ne.symm h]
    · simp [tagInsert, alookup, h0, ih]

theorem tagInsert_keys (acc : List (String × List GroupMember)) (t : String) (m : GroupMember) :
    (tagInsert acc t m).map Prod.fst
      = if t ∈ acc.map Prod.fst then acc.map Prod.fst else acc.map Prod.fst ++ [t] := by
  induction acc with
  | nil => simp [tagInsert]
  | cons hd tl ih =>
    obtain ⟨t', ms⟩ := hd
    by_cases h : t' = t
    · subst h
      simp [tagInsert]
    · simp only [tagInsert, if_neg h, List.map_cons, ih]
      by_cases hm : t ∈ tl.map Prod.fst
      · rw [if_pos hm, if_pos (List.mem_cons_of_mem _ hm)]
      · have hnc : t ∉ t' :: tl.map Prod.fst := by
          intro hc
          rcases List.mem_cons.mp hc with h' | h'
          · exact h h'.symm
          · exact hm h'
        rw [if_neg hm, if_neg hnc]
        simp 

theorem pathMembers_foldl (p : String) (mes : List (String × Operation))
    (acc : List (String × List GroupMember)) :
    mes.foldl
      (fun acc2 me =>
        match me.2 with
        | Operation.nonObj => acc2
        | Operation.obj tags => tagInsert acc2 (opTagFromTags tags) (p, me.1, .obj tags))
      acc
    = (pathMembers (p, mes)).foldl (fun acc m => tagInsert acc (memberTag m) m) acc := by
  induction mes generalizing acc with
  | nil => rfl
  | cons me mes ih =>
    obtain ⟨mname, op⟩ := me
    cases op with
    | nonObj =>
      simp only [List.foldl_cons, pathMembers, List.filterMap_cons]
      exact ih acc
    | obj tags =>
      simp only [List.foldl_cons, pathMembers, List.filterMap_cons]
      exact ih _

/-- The nested grouping loop equals a single fold over the flattened member list. -/
theorem groupPathsByTag_eq_flat (paths : List (String × List (String × Operation))) :
    groupPathsByTag paths
      = (flatMembers paths).foldl (fun acc m => tagInsert acc (memberTag m) m) [] := by
  suffices h : ∀ (ps : List (String × List (String × Operation)))
      (acc : List (String × List GroupMember)),
      ps.foldl
        (fun acc pe =>
          pe.2.foldl
            (fun acc2 me =>
              match me.2 with
              | Operation.nonObj => acc2
              | Operation.obj tags => tagInsert acc2 (opTagFromTags tags) (pe.1, me.1, .obj tags))
            acc)
        acc
      = (flatMembers ps).foldl (fun acc m => tagInsert acc (memberTag m) m) acc from
    h paths []
  intro ps
  induction ps with
  | nil => intro acc; rfl
  | cons pe rest ih =>
    intro acc
    obtain ⟨p, mes⟩ := pe
    simp only [List.foldl_cons, flatMembers, List.flatMap_cons, List.foldl_append]
    rw [ih, ← pathMembers_foldl]
    rfl

theorem alookup_foldl_tagInsert (l : List GroupMember) :
    ∀ (acc : List (String × List GroupMember)) (t : String),
      (alookup t (l.foldl (fun acc m => tagInsert acc (memberTag m) m) acc)).getD []
        = (alookup t acc).getD [] ++ l.filter (fun m => memberTag m == t) := by
  induction l with
  | nil => intro acc t; simp
  | cons m tl ih =>
    intro acc t
    simp only [List.foldl_cons, List.filter_cons]
    by_cases h : memberTag m = t
    · subst h
      rw [ih, alookup_tagInsert_self]
      simp [List.append_assoc]
    · rw [ih, alookup_tagInsert_ne _ _ _ _ (fun hh => h hh.symm)]
      simp [beq_iff_eq, h]

theorem groups_keys_nodup_aux (l : List GroupMember) :
    ∀ acc : List (String × List GroupMember), (acc.map Prod.fst).Nodup →
      ((l.foldl (fun acc m => tagInsert acc (memberTag m) m) acc).map Prod.fst).Nodup := by
  induction l with
  | nil => intro acc h; exact h
  | cons m tl ih =>
    intro acc h
    simp only [List.foldl_cons]
    refine ih _ ?_
    rw [tagInsert_keys]
    by_cases hm : memberTag m ∈ acc.map Prod.fst
    · rwa [if_pos hm]
    · rw [if_neg hm, List.nodup_append]
      refine ⟨h, List.nodup_singleton _, ?_⟩
      intro x hx hxs
      simp only [List.mem_singleton] at hxs
      subst hxs
      exact hm hx

theorem groups_keys_nodup (paths : List (String × List (String × Operation))) :
    ((groupPathsByTag paths).map Prod.fst).Nodup := by
  rw [groupPathsByTag_eq_flat]
  exact groups_keys_nodup_aux _ [] List.nodup_nil

theorem groups_alookup_getD (paths : List (String × List (String × Operation))) (t : String) :
    (alookup t (groupPathsByTag paths)).getD []
      = (flatMembers paths).filter (fun m => memberTag m == t) := by
  rw [groupPathsByTag_eq_flat, alookup_foldl_tagInsert]
  rfl

theorem alookup_of_mem_nodup {α : Type} {l : List (String × α)} {k : String} {v : α}
    (hn : (l.map Prod.fst).Nodup) (hm : (k, v) ∈ l) : alookup k l = some v := by
  induction l with
  | nil => cases hm
  | cons hd tl ih =>
    obtain ⟨a, b⟩ := hd
    simp only [List.map_cons, List.nodup_cons] at hn
    rcases List.mem_cons.mp hm with he | hm2
    · cases he
      simp [alookup]
    · have hk : k ∈ tl.map Prod.fst := List.mem_map.mpr ⟨(k, v), hm2, rfl⟩
      have : a ≠ k := fun hh => hn.1 (hh ▸ hk)
      simp only [alookup, if_neg this]
      exact ih hn.2 hm2

theorem mem_of_alookup {α : Type} {l : List (String × α)} {k : String} {v : α}
    (h : alookup k l = some v) : (k, v) ∈ l := by
  induction l with
  | nil => cases h
  | cons hd tl ih =>
    obtain ⟨a, b⟩ := hd
    by_cases ha : a = k
    · subst ha
      simp only [alookup, if_pos rfl] at h
      cases h
      exact List.mem_cons_self _ _
    · simp only [alookup, if_neg ha] at h
      exact List.mem_cons_of_mem _ (ih h)

theorem assoc_mem_unique {α : Type} {l : List (String × α)} {k : String} {v v' : α}
    (hn : (l.map Prod.fst).Nodup) (h1 : (k, v) ∈ l) (h2 : (k, v') ∈ l) : v = v' := by
  have e1 := alookup_of_mem_nodup hn h1
  have e2 := alookup_of_mem_nodup hn h2
  rw [e1] at e2
  exact Option.some.inj e2

theorem mem_flatMembers (paths : List (String × List (String × Operation)))
    (p m : String) (op : Operation) :
    (p, m, op) ∈ flatMembers paths ↔
      ∃ pi, (p, pi) ∈ paths ∧ (m, op) ∈ pi ∧ ∃ tags, op = .obj tags := by
  constructor
  · intro h
    rw [flatMembers, List.mem_flatMap] at h
    obtain ⟨pe, hpe, hmem⟩ := h
    rw [pathMembers, List.mem_filterMap] at hmem
    obtain ⟨me, hme, heq⟩ := hmem
    obtain ⟨mname, mop⟩ := me
    cases mop with
    | nonObj => exact absurd heq (by simp)
    | obj tags =>
      simp only [Option.some.injEq, Prod.mk.injEq] at heq
      obtain ⟨hp, hm, hop⟩ := heq
      refine ⟨pe.2, ?_, ?_, tags, hop.symm⟩
      · rw [← hp]; exact (by simpa using hpe)
      · rw [← hm, ← hop]; exact hme
  · rintro ⟨pi, hpi, hop, tags, rfl⟩
    rw [flatMembers, List.mem_flatMap]
    refine ⟨(p, pi), hpi, ?_⟩
    rw [pathMembers, List.mem_filterMap]
    exact ⟨(m, .obj tags), hop, rfl⟩

theorem member_in_group (paths : List (String × List (String × Operation)))
    (p m : String) (tags : Option (List String)) (pi : List (String × Operation))
    (hpi : (p, pi) ∈ paths) (hop : (m, Operation.obj tags) ∈ pi) :
    ∃ ms, alookup (opTagFromTags tags) (groupPathsByTag paths) = some ms ∧
      (p, m, Operation.obj tags) ∈ ms := by
  have hx : (p, m, Operation.obj tags) ∈ flatMembers paths :=
    (mem_flatMembers paths p m _).mpr ⟨pi, hpi, hop, tags, rfl⟩
  have hxf : (p, m, Operation.obj tags)
      ∈ (flatMembers paths).filter (fun m' => memberTag m' == opTagFromTags tags) := by
    rw [List.mem_filter]
    exact ⟨hx, by simp [memberTag]⟩
  have hne := List.ne_nil_of_mem hxf
  cases halo : alookup (opTagFromTags tags) (groupPathsByTag paths) with
  | none =>
    have hgd := groups_alookup_getD paths (opTagFromTags tags)
    rw [halo] at hgd
    exact absurd hgd.symm hne
  | some ms =>
    have hgd := groups_alookup_getD paths (opTagFromTags tags)
    rw [halo] at hgd
    simp only [Option.getD_some] at hgd
    exact ⟨ms, rfl, hgd ▸ hxf⟩

/-- C7 — grouping is a partition: a member appears in some group exactly when it
is a (path, method) pair with an object operation node, and (given the unique
path/method keys of a JS object tree) no (path, method) pair appears in two
different groups. -/
theorem C7_grouping_partition (paths : List (String × List (String × Operation)))
    (h1 : (paths.map Prod.fst).Nodup)
    (h2 : ∀ pi ∈ paths.map Prod.snd, (pi.map Prod.fst).Nodup) :
    (∀ (p m : String) (op : Operation),
      (∃ g ∈ groupPathsByTag paths, (p, m, op) ∈ g.2) ↔
        (∃ pi, (p, pi) ∈ paths ∧ (m, op) ∈ pi ∧ ∃ tags, op = Operation.obj tags)) ∧
    (∀ (t1 t2 : String) (ms1 ms2 : List GroupMember) (p m : String) (op op' : Operation),
      (t1, ms1) ∈ groupPathsByTag paths → (t2, ms2) ∈ groupPathsByTag paths →
      (p, m, op) ∈ ms1 → (p, m, op') ∈ ms2 → t1 = t2) := by
  have hmemg : ∀ (t : String) (ms : List GroupMember) (x : GroupMember),
      (t, ms) ∈ groupPathsByTag paths → x ∈ ms →
      x ∈ flatMembers paths ∧ memberTag x = t := by
    intro t ms x hg hx
    have halo := alookup_of_mem_nodup (groups_keys_nodup paths) hg
    have hgd := groups_alookup_getD paths t
    rw [halo] at hgd
    simp only [Option.getD_some] at hgd
    rw [hgd] at hx
    have hfm := List.mem_filter.mp hx
    exact ⟨hfm.1, by simpa [beq_iff_eq] using hfm.2⟩
  constructor
  · intro p m op
    constructor
    · rintro ⟨g, hg, hx⟩
      exact (mem_flatMembers paths p m op).mp (hmemg g.1 g.2 _ hg hx).1
    · rintro ⟨pi, hpi, hop, tags, rfl⟩
      obtain ⟨ms, halo, hms⟩ := member_in_group paths p m tags pi hpi hop
      exact ⟨(opTagFromTags tags, ms), mem_of_alookup halo, hms⟩
  · intro t1 t2 ms1 ms2 p m op op' hg1 hg2 hx1 hx2
    obtain ⟨hf1, ht1⟩ := hmemg t1 ms1 _ hg1 hx1
    obtain ⟨hf2, ht2⟩ := hmemg t2 ms2 _ hg2 hx2
    obtain ⟨pi, hpi, hop, _, _⟩ := (mem_flatMembers paths p m op).mp hf1
    obtain ⟨pi', hpi', hop', _, _⟩ := (mem_flatMembers paths p m op').mp hf2
    have hpieq : pi = pi' := assoc_mem_unique h1 hpi hpi'
    subst hpieq
    have hopeq : op = op' :=
      assoc_mem_unique (h2 pi (List.mem_map.mpr ⟨(p, pi), hpi, rfl⟩)) hop hop'
    rw [← ht1, ← ht2, hopeq]

/-- The two-path scenario of the spec (`/pets` with two tagged operations,
`/users` with one tagged operation and one non-object node). -/
def c7Paths : List (String × List (String × Operation)) :=
  [("/pets", [("get", .obj (some ["pets"])), ("post", .obj (some ["pets"]))]),
   ("/users", [("get", .obj (some ["users"])), ("x-note", .nonObj)])]

/-- C7 witness: the partition property applied to the concrete two-path scenario. -/
theorem C7_grouping_partition_witness :
    (c7Paths.map Prod.fst).Nodup ∧
    (∀ pi ∈ c7Paths.map Prod.snd, (pi.map Prod.fst).Nodup) ∧
    ((∀ (p m : String) (op : Operation),
      (∃ g ∈ groupPathsByTag c7Paths, (p, m, op) ∈ g.2) ↔
        (∃ pi, (p, pi) ∈ c7Paths ∧ (m, op) ∈ pi ∧ ∃ tags, op = Operation.obj tags)) ∧
    (∀ (t1 t2 : String) (ms1 ms2 : List GroupMember) (p m : String) (op op' : Operation),
      (t1, ms1) ∈ groupPathsByTag c7Paths → (t2, ms2) ∈ groupPathsByTag c7Paths →
      (p, m, op) ∈ ms1 → (p, m, op') ∈ ms2 → t1 = t2)) :=
  ⟨by decide, by intro pi hpi; fin_cases hpi <;> decide,
    C7_grouping_partition c7Paths (by decide) (by intro pi hpi; fin_cases hpi <;> decide)⟩

/-- C2 counterexample — an operation with a **present but empty** tag list is
grouped under the key `"undefined"` (the JS coercion of `tags[0] === undefined`),
not under the sentinel `'api'` that the claim requires. -/
theorem C2_counterexample :
    groupPathsByTag [("/pets", [("get", Operation.obj (some []))])]
      = [("undefined", [("/pets", "get", Operation.obj (some []))])] ∧
    ("undefined" : String) ≠ "api" :=
  ⟨rfl, by decide⟩

/-- C2 amended — for every (path, method) pair whose operation node is an object,
the member is grouped under `opTagFromTags tags`, which is: the first element
when the tag list is non-empty; the sentinel `'api'` when the list is absent;
and the string `"undefined"` (JS key coercion of `undefined`) when the list is
present but empty. -/
theorem C2_grouping_key :
    (∀ (paths : List (String × List (String × Operation))) (p m : String)
        (tags : Option (List String)) (pi : List (String × Operation)),
      (p, pi) ∈ paths → (m, Operation.obj tags) ∈ pi →
      ∃ ms, alookup (opTagFromTags tags) (groupPathsByTag paths) = some ms ∧
        (p, m, Operation.obj tags) ∈ ms) ∧
    opTagFromTags none = "api" ∧
    opTagFromTags (some []) = "undefined" ∧
    (∀ (t : String) (ts : List String), opTagFromTags (some (t :: ts)) = t) :=
  ⟨fun paths p m tags pi hpi hop => member_in_group paths p m tags pi hpi hop,
    rfl, rfl, fun _ _ => rfl⟩

/-- C2 witness: the grouping key property applied to a concrete tagged operation. -/
theorem C2_grouping_key_witness :
    ("/pets", [("get", Operation.obj (some ["pets"]))])
        ∈ [("/pets", [("get", Operation.obj (some ["pets"]))])] ∧
    ("get", Operation.obj (some ["pets"]))
        ∈ [("get", Operation.obj (some ["pets"]))] ∧
    (∃ ms, alookup (opTagFromTags (some ["pets"]))
        (groupPathsByTag [("/pets", [("get", Operation.obj (some ["pets"]))])]) = some ms ∧
      ("/pets", "get", Operation.obj (some ["pets"])) ∈ ms) ∧
    opTagFromTags none = "api" :=
  ⟨by decide, by decide,
    C2_grouping_key.1 [("/pets", [("get", Operation.obj (some ["pets"]))])]
      "/pets" "get" (some ["pets"]) [("get", Operation.obj (some ["pets"]))]
      (by decide) (by decide),
    C2_grouping_key.2.1⟩

/-! ## Emission pipeline: abort on failure, no rollback (claim C8) -/

theorem logAt_files (st : GenState) (lvl msg : String) : (logAt st lvl msg).files = st.files :=
  rfl

theorem tryArtifact_mono (st : GenState) (p : String) (r : Except String String)
    (em : String → String) : st.files <+: (tryArtifact st p r em).1.files := by
  cases r with
  | ok c => exact List.prefix_append _ _
  | error e => exact List.prefix_refl _

theorem tryArtifact_mono' {st0 st : GenState} (p : String) (r : Except String String)
    (em : String → String) (h : st.files = st0.files) :
    st0.files <+: (tryArtifact st p r em).1.files := by
  rw [← h]
  exact tryArtifact_mono st p r em

theorem andThen_mono {X : List (String × String)} {r : GenState × Option String}
    {k : GenState → GenState × Option String}
    (hr : X <+: r.1.files) (hk : ∀ st, st.files <+: (k st).1.files) :
    X <+: (andThen r k).1.files := by
  obtain ⟨st0, o⟩ := r
  cases o with
  | none => exact hr.trans (hk st0)
  | some e => exact hr

theorem genList_mono {α : Type} (f : GenState → α → GenState × Option String)
    (hf : ∀ st x, st.files <+: (f st x).1.files) :
    ∀ (l : List α) (st : GenState), st.files <+: (genList f st l).1.files := by
  intro l
  induction l with
  | nil => intro st; exact List.prefix_refl _
  | cons x tl ih =>
    intro st
    simp only [genList]
    cases hfx : f st x with
    | mk st' o =>
      cases o with
      | none =>
        have h1 : st.files <+: st'.files := by
          have := hf st x
          rw [hfx] at this
          exact this
        exact h1.trans (ih st')
      | some e =>
        have := hf st x
        rw [hfx] at this
        exact this

theorem genSchema_mono (fuel : Nat) (tpl : Templates)
    (comps : List (String × SchemaNode)) (st : GenState) (entry : String × SchemaNode) :
    st.files <+: (genSchema fuel tpl comps st entry).1.files := by
  simp only [genSchema]
  cases mergeComplexSchema fuel entry.2 comps with
  | none => exact List.prefix_refl _
  | some sch =>
    dsimp only
    cases sch.xOneOfUnion with
    | some unionTypes =>
      cases tpl.one_of_union with
      | some render =>
        dsimp only
        exact tryArtifact_mono' _ _ _ rfl
      | none => exact List.prefix_refl _
    | none =>
      cases sch.properties with
      | some props =>
        cases tpl.model_class with
        | some render =>
          dsimp only
          exact tryArtifact_mono' _ _ _ rfl
        | none => exact List.prefix_refl _
      | none =>
        cases tpl.model_class with
        | some render =>
          dsimp only
          exact tryArtifact_mono' _ _ _ rfl
        | none => exact List.prefix_refl _

theorem genRouteFile_mono (render : RoutesCtx → Except String String)
    (st : GenState) (g : String × List GroupMember) :
    st.files <+: (genRouteFile render st g).1.files := by
  unfold genRouteFile
  dsimp only
  exact tryArtifact_mono' _ _ _ rfl

theorem generateAggregatorFile_mono (st : GenState)
    (pathsByTag : List (String × List GroupMember)) :
    st.files <+: (generateAggregatorFile st pathsByTag).files := by
  cases pathsByTag with
  | nil => exact List.prefix_refl _
  | cons g gs => exact List.prefix_append _ _

theorem generateCore_mono (fuel : Nat) (tpl : Templates) (api : ApiSpec) (st : GenState) :
    st.files <+: (generateCore fuel tpl api st).1.files := by
  unfold generateCore
  apply andThen_mono
  · cases tpl.main with
    | some r =>
      dsimp only
      exact tryArtifact_mono' _ _ _ rfl
    | none => exact List.prefix_refl _
  intro st1
  apply andThen_mono
  · cases tpl.requirements with
    | some r =>
      dsimp only
      exact tryArtifact_mono' _ _ _ rfl
    | none => exact List.prefix_refl _
  intro st2
  apply andThen_mono
  · cases tpl.readme with
    | some r =>
      dsimp only
      exact tryArtifact_mono' _ _ _ rfl
    | none => exact List.prefix_refl _
  intro st3
  apply andThen_mono
  · exact genList_mono _ (genSchema_mono fuel tpl api.schemas) api.schemas st3
  intro st4
  cases api.paths with
  | none => exact List.prefix_refl _
  | some paths =>
    cases tpl.api_routes with
    | none => exact List.prefix_refl _
    | some render =>
      dsimp only
      apply andThen_mono
      · exact genList_mono _ (genRouteFile_mono render) (groupPathsByTag paths)
          (logAt st4 "INFO" "Generating route files...")
      intro st5
      exact generateAggregatorFile_mono st5 _

/-- A template set whose `main` renders successfully and whose `requirements`
render raises `boom`. -/
def tplReqFail : Templates :=
  ⟨some (.ok "M"), some (.error "boom"), none, none, none, none⟩

/-- An API description with no schemas and no paths. -/
def apiEmpty : ApiSpec := ⟨[], none⟩

/-- C8 — whenever rendering-and-writing an artifact fails, the run aborts with
that error propagated to the caller, after an error-level diagnostic; files are
only ever appended within a run, so everything written by earlier steps remains
written (no rollback). Concretely: with a failing `requirements` template, the
run returns the error `boom`, the previously written `main.py` is still present
as the only file, and both the per-artifact and the final error diagnostics are
in the log. -/
theorem C8_abort_propagates_no_rollback :
    (∀ (fuel : Nat) (tpl : Templates) (api : ApiSpec) (st : GenState),
      st.files <+: (generate fuel tpl api st).1.files ∧
      (∀ e, (generate fuel tpl api st).2 = some e →
        ("ERROR", "Generation failed: " ++ e) ∈ (generate fuel tpl api st).1.logs)) ∧
    (generate 1 tplReqFail apiEmpty ⟨[], []⟩).1.files = [("main.py", "M")] ∧
    (generate 1 tplReqFail apiEmpty ⟨[], []⟩).2 = some "boom" ∧
    ("ERROR", "Error generating requirements.txt: boom")
      ∈ (generate 1 tplReqFail apiEmpty ⟨[], []⟩).1.logs := by
  refine ⟨?_, rfl, rfl, by decide⟩
  intro fuel tpl api st
  constructor
  · unfold generate
    cases h : generateCore fuel tpl api st with
    | mk st' res =>
      have hm := generateCore_mono fuel tpl api st
      rw [h] at hm
      cases res with
      | none => exact hm
      | some e => exact hm
  · intro e he
    unfold generate at he ⊢
    cases h : generateCore fuel tpl api st with
    | mk st' res =>
      rw [h] at he
      cases res with
      | none => exact Option.noConfusion he
      | some e' =>
        have he' : e' = e := Option.some.inj he
        subst he'
        exact List.mem_append_right _ (List.mem_singleton.mpr rfl)

/-- C8 witness: the abort/no-rollback property applied to the concrete failing
scenario. -/
theorem C8_abort_witness :
    ([] : List (String × String)) <+: (generate 1 tplReqFail apiEmpty ⟨[], []⟩).1.files ∧
    ("ERROR", "Generation failed: " ++ "boom")
      ∈ (generate 1 tplReqFail apiEmpty ⟨[], []⟩).1.logs :=
  ⟨(C8_abort_propagates_no_rollback.1 1 tplReqFail apiEmpty ⟨[], []⟩).1,
    (C8_abort_propagates_no_rollback.1 1 tplReqFail apiEmpty ⟨[], []⟩).2 "boom" rfl⟩
